import Mathlib

/-!
Verification of the gbox graphics core: the quadratic Bezier flattener
(quad.c) and the scanline polygon rasterizer (polygon_raster.c).

The development is a shallow embedding of the two C translation units.

Part 1 models the flattener.  Its scalar type gb_float_t is modelled as
the exact rationals: the claims about the flattener are arithmetic
identities of the ideal computation, and the spec describes the scalar
only as a number type with add, sub, mul, div, abs and comparisons.
Helper macros of the host toolkit (gb_avg, gb_half, gb_interp, gb_lz,
gb_ez, gb_nz, tb_ilog2i, GB_QUAD_DIVIDED_MAXN) are not part of the two
source files; each such definition carries a comment and follows the
words of the spec.

Part 2 models the rasterizer in the fixed-point build configuration the
spec describes, where the scalar FX is a signed 16.16 fixed-point
number: FX values are raw integer units (an integer q stands for the
number q / 65536).  Linked lists threaded through 16-bit pool indices
are modelled as Lean lists (the index plumbing is memory layout); the
edge table is a function from the scanline number to the bucket list.
-/

/-! ## Part 1: quadratic Bezier flattener (quad.c), scalars as exact rationals -/

/-- A point of the flattener: a pair of gb_float_t coordinates. -/
abbrev QPoint := ℚ × ℚ

/-- Modelled from the spec: gb_avg, the average of two scalars (exact halving). -/
def gb_avg (a b : ℚ) : ℚ := (a + b) / 2

/-- Modelled from the spec: gb_half, half of a scalar. -/
def gb_half (a : ℚ) : ℚ := a / 2

/-- Modelled from the spec: gb_interp, the linear interpolation
lerp(lo, hi, factor) = lo + (hi - lo) * factor. -/
def gb_interp (lo hi factor : ℚ) : ℚ := lo + (hi - lo) * factor

/-- Modelled from the spec: GB_QUAD_DIVIDED_MAXN, the compile-time cap on the
number of halvings (the spec: at most 5 is typical, at most 32 subsegments). -/
def GB_QUAD_DIVIDED_MAXN : ℕ := 5

/-- Modelled from the spec: tb_ilog2i, the integer ceiling base-2 logarithm. -/
def tb_ilog2i (n : ℕ) : ℕ := Nat.clog 2 n

/-- gb_quad_near_distance from quad.c: the approximate distance between the
control point p1 and the chord midpoint of p0 and p2, namely
dx and dy are the absolute coordinates of midpoint(p0, p2) - p1 and the
result is dx + dy/2 when dx > dy and dy + dx/2 otherwise. -/
def gb_quad_near_distance (p0 p1 p2 : QPoint) : ℚ :=
  let dx := |gb_avg p0.1 p2.1 - p1.1|
  let dy := |gb_avg p0.2 p2.2 - p1.2|
  if dx > dy then dx + gb_half dy else dy + gb_half dx

/-- gb_quad_divide_line_count from quad.c: the integer distance is the ceiling
of the approximate distance, the count is ilog2(idistance) / 2 + 1, capped at
GB_QUAD_DIVIDED_MAXN. -/
def gb_quad_divide_line_count (p0 p1 p2 : QPoint) : ℕ :=
  let distance := gb_quad_near_distance p0 p1 p2
  let idistance := (Int.ceil distance).toNat
  let count := tb_ilog2i idistance / 2 + 1
  if count > GB_QUAD_DIVIDED_MAXN then GB_QUAD_DIVIDED_MAXN else count

/-- gb_quad_chop_at_half from quad.c: split the control polygon at t = 1/2
using averages only, giving the five points o0 .. o4. -/
def gb_quad_chop_at_half (p0 p1 p2 : QPoint) :
    QPoint × QPoint × QPoint × QPoint × QPoint :=
  let x01 := gb_avg p0.1 p1.1
  let y01 := gb_avg p0.2 p1.2
  let x12 := gb_avg p1.1 p2.1
  let y12 := gb_avg p1.2 p2.2
  (p0, (x01, y01), (gb_avg x01 x12, gb_avg y01 y12), (x12, y12), p2)

/-- gb_quad_chop_at from quad.c (through gb_quad_chop_xy_at applied to the
x-strided and y-strided coordinate arrays): the de Casteljau split at the
given factor, giving the five points p0, lerp01, lerp(lerp01, lerp12),
lerp12, p2. -/
def gb_quad_chop_at (p0 p1 p2 : QPoint) (factor : ℚ) :
    QPoint × QPoint × QPoint × QPoint × QPoint :=
  let x01 := gb_interp p0.1 p1.1 factor
  let y01 := gb_interp p0.2 p1.2 factor
  let x12 := gb_interp p1.1 p2.1 factor
  let y12 := gb_interp p1.2 p2.2 factor
  (p0, (x01, y01), (gb_interp x01 x12 factor, gb_interp y01 y12 factor), (x12, y12), p2)

/-- gb_quad_unit_divide from quad.c.  The C function takes a pointer to the
result slot; the model takes the current slot value r0 and returns the pair
of the C return value and the final slot value.  The sign of a negative
numerator is moved onto the denominator; the division is rejected when the
numerator or denominator is zero, when numer is not below denom, when the
quotient falls outside the range from zero inclusive to one exclusive, or
when the quotient is negligible (gb_nz fails; in the exact model this is
a zero quotient).  The finiteness check of the C code cannot fail over the
exact rationals. -/
def gb_quad_unit_divide (numer denom r0 : ℚ) : ℕ × ℚ :=
  let n := if numer < 0 then -numer else numer
  let d := if numer < 0 then -denom else denom
  if d = 0 ∨ n = 0 ∨ n ≥ d then (0, r0)
  else
    let r := n / d
    if ¬ (¬ r < 0 ∧ r < 1) then (0, r0)
    else if r = 0 then (0, r0)
    else (1, r)

/-- The numerator passed to gb_quad_unit_divide by gb_quad_find_max_curvature:
minus (x0 * x1 + y0 * y1) with x0 = p1.x - p0.x and
x1 = p0.x - p1.x - p1.x + p2.x, and alike for y. -/
def gb_quad_curvature_numer (p0 p1 p2 : QPoint) : ℚ :=
  -((p1.1 - p0.1) * (p0.1 - p1.1 - p1.1 + p2.1) +
    (p1.2 - p0.2) * (p0.2 - p1.2 - p1.2 + p2.2))

/-- The denominator passed to gb_quad_unit_divide by
gb_quad_find_max_curvature: x1 * x1 + y1 * y1. -/
def gb_quad_curvature_denom (p0 p1 p2 : QPoint) : ℚ :=
  (p0.1 - p1.1 - p1.1 + p2.1) * (p0.1 - p1.1 - p1.1 + p2.1) +
  (p0.2 - p1.2 - p1.2 + p2.2) * (p0.2 - p1.2 - p1.2 + p2.2)

/-- gb_quad_find_max_curvature from quad.c: the factor slot starts at zero
and keeps that value whenever gb_quad_unit_divide rejects. -/
def gb_quad_find_max_curvature (p0 p1 p2 : QPoint) : ℚ :=
  (gb_quad_unit_divide (gb_quad_curvature_numer p0 p1 p2)
    (gb_quad_curvature_denom p0 p1 p2) 0).2

/-- gb_quad_chop_at_max_curvature from quad.c: when the found factor is
non-zero the curve is chopped there into the five points of two quads and
the count is 2; otherwise the three input points are copied out and the
count is 1. -/
def gb_quad_chop_at_max_curvature (p0 p1 p2 : QPoint) : List QPoint × ℕ :=
  let factor := gb_quad_find_max_curvature p0 p1 p2
  if factor ≠ 0 then
    let o := gb_quad_chop_at p0 p1 p2 factor
    ([o.1, o.2.1, o.2.2.1, o.2.2.2.1, o.2.2.2.2], 2)
  else ([p0, p1, p2], 1)

/-- gb_quad_make_line_impl from quad.c, with the emission callback replaced
by the returned list: while the count is positive the quad is chopped at the
half and both halves are recursed into, left first; at a leaf the point
points[2] of the current triple is emitted. -/
def gb_quad_make_line_impl (p0 p1 p2 : QPoint) : ℕ → List QPoint
  | 0 => [p2]
  | Nat.succ n =>
    let o := gb_quad_chop_at_half p0 p1 p2
    gb_quad_make_line_impl o.1 o.2.1 o.2.2.1 n ++
      gb_quad_make_line_impl o.2.2.1 o.2.2.2.1 o.2.2.2.2 n

/-- gb_quad_make_line from quad.c: compute the divided count, then emit the
flattened polyline. -/
def gb_quad_make_line (p0 p1 p2 : QPoint) : List QPoint :=
  gb_quad_make_line_impl p0 p1 p2 (gb_quad_divide_line_count p0 p1 p2)

/-- The quadratic Bezier curve of a control triple, evaluated at parameter t.
This is the claim-side mathematical description of the curve the flattener
approximates. -/
def gb_quad_eval (p0 p1 p2 : QPoint) (t : ℚ) : QPoint :=
  ((1 - t) ^ 2 * p0.1 + 2 * t * (1 - t) * p1.1 + t ^ 2 * p2.1,
   (1 - t) ^ 2 * p0.2 + 2 * t * (1 - t) * p1.2 + t ^ 2 * p2.2)

/-! ## Part 2: polygon rasterizer (polygon_raster.c), fixed-point build

Scalars are FX values in raw 16.16 units (an integer q stands for
q / 65536).  In this build configuration gb_float_to_fixed is the
identity and gb_round is tb_fixed_round. -/

/-- Modelled from the spec: tb_fixed_mul, the 16.16 fixed-point product,
an arithmetic right shift of the wide product by 16 bits. -/
def tb_fixed_mul (a b : ℤ) : ℤ := (a * b).fdiv 65536

/-- Modelled from the spec: tb_fixed_div, the 16.16 fixed-point quotient;
C integer division truncates toward zero. -/
def tb_fixed_div (a b : ℤ) : ℤ := (a * 65536).tdiv b

/-- Modelled from the spec: tb_fixed_round, rounding half-up to an integer,
computed as the arithmetic right shift of x + 0.5 by 16 bits. -/
def tb_fixed_round (x : ℤ) : ℤ := (x + 32768).fdiv 65536

/-- Modelled from the spec: TB_FIXED_NEAR0, the small epsilon used by the
convex rectangle fast path to detect a nearly vertical edge. -/
def TB_FIXED_NEAR0 : ℤ := 16

/-- A polygon input point, in FX raw units (fixed-point build). -/
abbrev RPoint := ℤ × ℤ

/-- The edge record of polygon_raster.c.  The next pool index is not a
field: list membership replaces the intrusive link. -/
structure Edge where
  winding : ℤ
  y_top : ℤ
  y_bottom : ℤ
  x : ℤ
  slope : ℤ
  x_top : ℤ
  x_bottom : ℤ
  dy_top : ℤ
  dy_bottom : ℤ
  is_top : Bool
deriving DecidableEq, Repr

/-- One span handed to the emit callback: the scanline range and the two
edge records the callback receives (their field values at call time). -/
structure Span where
  ys : ℤ
  ye : ℤ
  lsh : Edge
  rsh : Edge
deriving DecidableEq, Repr

/-- The polygon input: points, contour counts (a zero count acts as the
terminating sentinel), and the convex flag. -/
structure GPolygon where
  points : List RPoint
  counts : List ℕ
  convex : Bool

/-- The bounding rectangle, in FX raw units. -/
structure GRect where
  x : ℤ
  y : ℤ
  w : ℤ
  h : ℤ

/-- The scanning state of a raster run: the edge table as a function from
the absolute scanline number to its bucket list, and the active edge list. -/
structure ScanState where
  table : ℤ → List Edge
  active : List Edge

/-- One edge of gb_polygon_raster_edges_make, built from the consecutive
input points pb and pe: skipped when both rounded y coordinates agree
(horizontal); otherwise the endpoints are sorted top-down (reversing the
winding when swapped), the slope is dx over dy of the original endpoints,
the start x is corrected by dy_top times the slope, and the edge spans the
scanlines y_top = iyb up to y_bottom = iye - 1 inclusive. -/
def gb_polygon_raster_edge_make (pb pe : RPoint) : Option Edge :=
  let iyb0 := tb_fixed_round pb.2
  let iye0 := tb_fixed_round pe.2
  if iyb0 = iye0 then none
  else
    let dx := pe.1 - pb.1
    let dy := pe.2 - pb.2
    let wd : ℤ := if pb.2 > pe.2 then -1 else 1
    let xb := if pb.2 > pe.2 then pe.1 else pb.1
    let yb := if pb.2 > pe.2 then pe.2 else pb.2
    let xe := if pb.2 > pe.2 then pb.1 else pe.1
    let ye := if pb.2 > pe.2 then pb.2 else pe.2
    let iyb := if pb.2 > pe.2 then iye0 else iyb0
    let iye := if pb.2 > pe.2 then iyb0 else iye0
    let slope := tb_fixed_div dx dy
    let dyTop := yb - iyb * 65536
    some { winding := wd, y_top := iyb, y_bottom := iye - 1,
           x := xb - tb_fixed_mul dyTop slope, slope := slope,
           x_top := xb, x_bottom := xe,
           dy_top := dyTop, dy_bottom := ye - iye * 65536, is_top := true }

/-- The edges of one contour, in traversal order: each consecutive pair of
the contour's points contributes at most one edge. -/
def gb_polygon_raster_contour_edges (pts : List RPoint) : List Edge :=
  (pts.zip pts.tail).filterMap (fun pq => gb_polygon_raster_edge_make pq.1 pq.2)

/-- The edges of all contours in traversal order: each count takes that many
points off the stream; a zero count is the sentinel and stops the walk. -/
def gb_polygon_raster_all_edges : List ℕ → List RPoint → List Edge
  | [], _ => []
  | c :: cs, pts =>
    if c = 0 then []
    else gb_polygon_raster_contour_edges (pts.take c) ++
      gb_polygon_raster_all_edges cs (pts.drop c)

/-- Insertion at the head of the bucket of the edge's y_top, as
gb_polygon_raster_table_insert does. -/
def gb_polygon_raster_table_insert (t : ℤ → List Edge) (e : Edge) : ℤ → List Edge :=
  fun j => if j = e.y_top then e :: t j else t j

/-- The edge table built from the traversal-ordered edge list, every edge
head-inserted into the bucket of its y_top. -/
def gb_polygon_raster_build_table (edges : List Edge) : ℤ → List Edge :=
  edges.foldl gb_polygon_raster_table_insert (fun _ => [])

/-- The accurate y bounds tracked by gb_polygon_raster_edges_make: the
minimum y_top and the maximum y_bottom + 1 over the created edges, and
the initial zeros when no edge was created. -/
def gb_polygon_raster_top_bottom : List Edge → ℤ × ℤ
  | [] => (0, 0)
  | e :: es =>
    es.foldl (fun tb f => (min tb.1 f.y_top, max tb.2 (f.y_bottom + 1)))
      (e.y_top, e.y_bottom + 1)

/-- gb_polygon_raster_edges_make: fails (returns none) on empty bounds or
when the edge table would need more than 65535 buckets; otherwise yields
the filled edge table and the polygon's top and bottom scanlines.
Allocation failure is not modelled. -/
def gb_polygon_raster_edges_make (counts : List ℕ) (pts : List RPoint)
    (bounds : GRect) : Option ((ℤ → List Edge) × ℤ × ℤ) :=
  if bounds.w ≠ 0 ∧ bounds.h ≠ 0 ∧ tb_fixed_round bounds.h + 1 ≤ 65535 then
    let edges := gb_polygon_raster_all_edges counts pts
    let tb := gb_polygon_raster_top_bottom edges
    some (gb_polygon_raster_build_table edges, tb.1, tb.2)
  else none

/-- gb_polygon_raster_edges_append: walk the bucket list, head-inserting
every edge into the active list (so the bucket arrives reversed in front). -/
def gb_polygon_raster_edges_append (bucket active : List Edge) : List Edge :=
  bucket.foldl (fun act e => e :: act) active

/-- One inner pass of gb_polygon_raster_edges_sort: the slot value e is
swapped with each later slot holding a smaller x; the pair is the final
value of the first slot and the remaining slots. -/
def gb_polygon_raster_sort_pass (e : Edge) : List Edge → Edge × List Edge
  | [] => (e, [])
  | r :: rs =>
    if r.x < e.x then
      let p := gb_polygon_raster_sort_pass r rs
      (p.1, e :: p.2)
    else
      let p := gb_polygon_raster_sort_pass e rs
      (p.1, r :: p.2)

/-- The outer loop of gb_polygon_raster_edges_sort, driven by a fuel that
the caller sets to the list length (each pass keeps the length of the
remaining slots, so that fuel always suffices). -/
def gb_polygon_raster_edges_sort_go : ℕ → List Edge → List Edge
  | 0, l => l
  | _ + 1, [] => []
  | n + 1, e :: rest =>
    let p := gb_polygon_raster_sort_pass e rest
    p.1 :: gb_polygon_raster_edges_sort_go n p.2

/-- gb_polygon_raster_edges_sort: the selection sort over the active list,
comparing the current x only. -/
def gb_polygon_raster_edges_sort (l : List Edge) : List Edge :=
  gb_polygon_raster_edges_sort_go l.length l

/-- One sorted insertion of gb_polygon_raster_edges_sorted_append: the edge
goes in front of the first active edge whose x is larger, or whose x is
equal while its slope is larger. -/
def gb_polygon_raster_sorted_insert (e : Edge) : List Edge → List Edge
  | [] => [e]
  | a :: rest =>
    if e.x < a.x ∨ (e.x = a.x ∧ e.slope < a.slope) then e :: a :: rest
    else a :: gb_polygon_raster_sorted_insert e rest

/-- gb_polygon_raster_edges_sorted_append: each bucket edge in turn is
inserted into the active list at its sorted position. -/
def gb_polygon_raster_edges_sorted_append (bucket active : List Edge) : List Edge :=
  bucket.foldl (fun act e => gb_polygon_raster_sorted_insert e act) active

/-- The loop body of gb_polygon_raster_scanning_next, threading the first
flag, the order flag and the previous x through the walk.  An edge is
unlinked when y differs from bottom - 1 and its y_bottom is below y + 1;
a kept edge gets the slope added to x and the is_top flag cleared, and
breaks the order flag when its new x falls below the previous kept x. -/
def gb_polygon_raster_scanning_next_go (bottom y : ℤ) :
    List Edge → Bool → Bool → ℤ → List Edge × Bool
  | [], _, order, _ => ([], order)
  | e :: rest, first, order, prevx =>
    if y ≠ bottom - 1 ∧ e.y_bottom < y + 1 then
      gb_polygon_raster_scanning_next_go bottom y rest first order prevx
    else
      let e' : Edge := { e with x := e.x + e.slope, is_top := false }
      let order' := if first then order
        else if order ∧ e'.x < prevx then false else order
      let r := gb_polygon_raster_scanning_next_go bottom y rest false order' e'.x
      (e' :: r.1, r.2)

/-- gb_polygon_raster_scanning_next: the resulting active list and the order
flag (the C code computes the flag only when the caller passes a slot for
it; the convex driver discards it). -/
def gb_polygon_raster_scanning_next (bottom y : ℤ) (active : List Edge) :
    List Edge × Bool :=
  gb_polygon_raster_scanning_next_go bottom y active true true 0

/-- gb_polygon_raster_scanning_convex_line: nothing happens with fewer than
two active edges; with both front slopes nearly zero the rectangle fast
path emits one multi-scanline span down to the smaller y_bottom plus one,
clears the active list and re-inserts the taller edge into the edge table
at the span's end when it continues below it; otherwise one single-scanline
span over the two front edges is emitted. -/
def gb_polygon_raster_scanning_convex_line (y : ℤ) (st : ScanState) :
    Option Span × ScanState :=
  match st.active with
  | [] => (none, st)
  | [_] => (none, st)
  | el :: er :: _ =>
    if |el.slope| ≤ TB_FIXED_NEAR0 ∧ |er.slope| ≤ TB_FIXED_NEAR0 then
      let emin := if el.y_bottom > er.y_bottom then er else el
      let emax := if el.y_bottom > er.y_bottom then el else er
      let ye := emin.y_bottom + 1
      let table' := if ye < emax.y_bottom then
          fun j => if j = ye then emax :: st.table j else st.table j
        else st.table
      (some ⟨y, ye, el, er⟩, { table := table', active := [] })
    else (some ⟨y, y + 1, el, er⟩, st)

/-- The walk of gb_polygon_raster_scanning_concave_line over the active
list: the winding accumulates the left edge's winding; the rule decides
whether the pair is filled (the odd rule tests the low bit, the non-zero
rule tests against zero, any other rule fills nothing and logs one error
per examined pair); a filled pair starts the span cache, extends it when
the cached right x rounds to the same pixel as the pair's left x, or
flushes the cache as an emitted span; the final cache is flushed after the
walk. -/
def gb_polygon_raster_concave_go (y : ℤ) (rule : ℕ) :
    ℤ → Option (Edge × Edge) → List Edge → List Span × ℕ
  | _, none, [] => ([], 0)
  | _, some c, [] => ([⟨y, y + 1, c.1, c.2⟩], 0)
  | _, none, [_] => ([], 0)
  | _, some c, [_] => ([⟨y, y + 1, c.1, c.2⟩], 0)
  | w, cache, e1 :: e2 :: rest =>
    let w' := w + e1.winding
    let dn : Bool := if rule = 1 then decide (w' % 2 ≠ 0)
      else if rule = 2 then decide (w' ≠ 0) else false
    let errInc : ℕ := if rule = 1 ∨ rule = 2 then 0 else 1
    if dn then
      match cache with
      | none =>
        let r := gb_polygon_raster_concave_go y rule w' (some (e1, e2)) (e2 :: rest)
        (r.1, r.2 + errInc)
      | some (cl, cr) =>
        if tb_fixed_round cr.x = tb_fixed_round e1.x then
          let r := gb_polygon_raster_concave_go y rule w' (some (cl, e2)) (e2 :: rest)
          (r.1, r.2 + errInc)
        else
          let r := gb_polygon_raster_concave_go y rule w' (some (e1, e2)) (e2 :: rest)
          (⟨y, y + 1, cl, cr⟩ :: r.1, r.2 + errInc)
    else
      let r := gb_polygon_raster_concave_go y rule w' cache (e2 :: rest)
      (r.1, r.2 + errInc)

/-- gb_polygon_raster_scanning_concave_line: the walk starts with winding
zero and an empty cache; the result is the emitted spans of the scanline
and the number of unknown-rule error logs. -/
def gb_polygon_raster_scanning_concave_line (y : ℤ) (rule : ℕ)
    (active : List Edge) : List Span × ℕ :=
  gb_polygon_raster_concave_go y rule 0 none active

/-- The scan loop of gb_polygon_raster_done_convex, driven by the number of
remaining scanlines: splice the bucket of y into the active list by sorted
append, run the convex line, then advance with scanning_next (whose order
flag the convex driver discards). -/
def gb_polygon_raster_convex_loop (bottom : ℤ) : ℕ → ℤ → ScanState → List Span
  | 0, _, _ => []
  | Nat.succ n, y, st =>
    let act1 := gb_polygon_raster_edges_sorted_append (st.table y) st.active
    let res := gb_polygon_raster_scanning_convex_line y ⟨st.table, act1⟩
    let nx := gb_polygon_raster_scanning_next bottom y res.2.active
    res.1.toList ++
      gb_polygon_raster_convex_loop bottom n (y + 1) ⟨res.2.table, nx.1⟩

/-- gb_polygon_raster_done_convex for one contour: make the edges, then
scan from top to bottom - 1. -/
def gb_polygon_raster_done_convex (pts : List RPoint) (bounds : GRect) :
    List Span :=
  match gb_polygon_raster_edges_make [pts.length] pts bounds with
  | none => []
  | some (table, top, bottom) =>
    gb_polygon_raster_convex_loop bottom (bottom - top).toNat top ⟨table, []⟩

/-- The scan loop of gb_polygon_raster_done_concave: when the order flag is
set the bucket is spliced by sorted append, otherwise it is prepended and
the whole active list is re-sorted; then the concave line runs and
scanning_next advances the edges and recomputes the order flag. -/
def gb_polygon_raster_concave_loop (rule : ℕ) (table : ℤ → List Edge)
    (bottom : ℤ) : ℕ → ℤ → List Edge → Bool → List Span × ℕ
  | 0, _, _, _ => ([], 0)
  | Nat.succ n, y, active, order =>
    let act1 := if order then gb_polygon_raster_edges_sorted_append (table y) active
      else gb_polygon_raster_edges_sort (gb_polygon_raster_edges_append (table y) active)
    let line := gb_polygon_raster_scanning_concave_line y rule act1
    let nx := gb_polygon_raster_scanning_next bottom y act1
    let rest := gb_polygon_raster_concave_loop rule table bottom n (y + 1) nx.1 nx.2
    (line.1 ++ rest.1, line.2 + rest.2)

/-- gb_polygon_raster_done_concave: make the edges of all contours, then
scan from top to bottom - 1 with the order flag initially set. -/
def gb_polygon_raster_done_concave (counts : List ℕ) (pts : List RPoint)
    (bounds : GRect) (rule : ℕ) : List Span × ℕ :=
  match gb_polygon_raster_edges_make counts pts bounds with
  | none => ([], 0)
  | some (table, top, bottom) =>
    gb_polygon_raster_concave_loop rule table bottom (bottom - top).toNat top [] true

/-- The contour slices taken by gb_polygon_raster_done in the convex case:
each count takes that many points; a zero count is the sentinel. -/
def gb_polygon_raster_contours_split : List ℕ → List RPoint → List (List RPoint)
  | [], _ => []
  | c :: cs, pts =>
    if c = 0 then []
    else pts.take c :: gb_polygon_raster_contours_split cs (pts.drop c)

/-- gb_polygon_raster_done: a convex polygon is rastered one contour at a
time through the convex fast path (the rule is ignored there and no error
is ever logged); a concave polygon goes through the concave path.  The
result is the emitted spans in order and the number of unknown-rule error
logs. -/
def gb_polygon_raster_done (poly : GPolygon) (bounds : GRect) (rule : ℕ) :
    List Span × ℕ :=
  if poly.convex then
    (((gb_polygon_raster_contours_split poly.counts poly.points).map
        (fun pts => gb_polygon_raster_done_convex pts bounds)).flatten, 0)
  else gb_polygon_raster_done_concave poly.counts poly.points bounds rule

/-! ## Claim-side notions

The definitions below do not model code: they state, over the embedded
data, the geometric and order-theoretic properties the claims speak
about. -/

/-- The boundary segments of the polygon, as the claims speak about the
geometry: every consecutive pair of contour points, horizontal segments
included (the caller closes each contour by repeating its first point). -/
def polygon_segments : List ℕ → List RPoint → List (RPoint × RPoint)
  | [], _ => []
  | c :: cs, pts =>
    if c = 0 then []
    else ((pts.take c).zip (pts.take c).tail) ++ polygon_segments cs (pts.drop c)

/-- Whether the horizontal ray from the point p to the right crosses the
segment s, with the usual half-open convention in y (the lower endpoint
inclusive, the upper exclusive) so that shared vertices count once.  All
coordinates are FX raw units.  The strict inequality on the cross product
places the crossing strictly to the right of p. -/
def segment_crosses_right (p : RPoint) (s : RPoint × RPoint) : Bool :=
  let a := s.1
  let b := s.2
  if a.2 ≤ p.2 ∧ p.2 < b.2 then
    decide ((a.1 - p.1) * (b.2 - a.2) + (p.2 - a.2) * (b.1 - a.1) > 0)
  else if b.2 ≤ p.2 ∧ p.2 < a.2 then
    decide ((a.1 - p.1) * (b.2 - a.2) + (p.2 - a.2) * (b.1 - a.1) < 0)
  else false

/-- Whether the point p lies on the segment s (collinear and inside the
coordinate ranges), in FX raw units. -/
def point_on_segment (p : RPoint) (s : RPoint × RPoint) : Bool :=
  let a := s.1
  let b := s.2
  decide ((b.1 - a.1) * (p.2 - a.2) = (b.2 - a.2) * (p.1 - a.1) ∧
    min a.1 b.1 ≤ p.1 ∧ p.1 ≤ max a.1 b.1 ∧ min a.2 b.2 ≤ p.2 ∧ p.2 ≤ max a.2 b.2)

/-- Whether the point p lies strictly inside the polygon under the odd
rule: off the boundary, and crossed by an odd number of segments to the
right.  This is the claim-side meaning of a pixel center strictly inside
the polygon. -/
def strictly_inside_odd (segs : List (RPoint × RPoint)) (p : RPoint) : Bool :=
  (segs.countP (segment_crosses_right p)) % 2 = 1 ∧ ¬ segs.any (point_on_segment p)

/-- Whether the pixel with center (ix, iy) (integer pixel coordinates)
falls in the union of the emitted spans, under the strictest reading of a
span: the center must lie strictly between the two edge x coordinates and
within the half-open scanline range.  Any broader reading of a span covers
at least these pixels. -/
def pixel_in_spans (spans : List Span) (ix iy : ℤ) : Bool :=
  spans.any (fun s =>
    decide (s.ys ≤ iy ∧ iy < s.ye ∧ s.lsh.x < ix * 65536 ∧ ix * 65536 < s.rsh.x))

/-- The x-only order of edges, by which the active list is sorted. -/
abbrev edge_x_le (a b : Edge) : Prop := a.x ≤ b.x

/-- The lexicographic order over x and then slope, by which the spec says
the active list is sorted. -/
abbrev edge_lex_le (a b : Edge) : Prop :=
  a.x < b.x ∨ (a.x = b.x ∧ a.slope ≤ b.slope)

/-- The accumulated winding after the first n active edges of a scanline. -/
def winding_sum (l : List Edge) (n : ℕ) : ℤ :=
  ((l.take n).map (fun e => e.winding)).sum

/-- A span of the given scanline whose x range contains the interval from
lo to hi: the way one emitted span accounts for one filled active pair. -/
def span_covers (y : ℤ) (spans : List Span) (lo hi : ℤ) : Prop :=
  ∃ s ∈ spans, s.ys = y ∧ s.ye = y + 1 ∧ s.lsh.x ≤ lo ∧ hi ≤ s.rsh.x

/-- The edge-table invariant: every edge sitting in bucket j still spans
scanline j. -/
def table_inv (t : ℤ → List Edge) : Prop :=
  ∀ j : ℤ, ∀ e ∈ t j, j ≤ e.y_bottom

/-- The active-list invariant at scanline y: every active edge still spans
scanline y. -/
def active_inv (y : ℤ) (l : List Edge) : Prop :=
  ∀ e ∈ l, y ≤ e.y_bottom

/-! ## Concrete inputs used by counterexamples and witnesses -/

/-- The 10 by 5 axis-aligned rectangle of the spec's first scenario, as a
closed contour in FX raw units, with the convex flag off so that the
concave (general) path processes it. -/
def rect_poly : GPolygon :=
  { points := [(0, 0), (655360, 0), (655360, 327680), (0, 327680), (0, 0)],
    counts := [5], convex := false }

/-- The bounds of the rectangle scenario. -/
def rect_bounds : GRect := { x := 0, y := 0, w := 655360, h := 327680 }

/-- An edge whose y_bottom equals the current scanline, used to probe the
eviction condition of gb_polygon_raster_scanning_next. -/
def probe_edge : Edge :=
  { winding := 1, y_top := 0, y_bottom := 5, x := 100, slope := 7,
    x_top := 0, x_bottom := 0, dy_top := 0, dy_bottom := 0, is_top := true }

/-- Two active edges with equal x and decreasing slopes: a tie the spec
says gb_polygon_raster_edges_sort breaks by slope. -/
def tie_edge_a : Edge :=
  { winding := 1, y_top := 0, y_bottom := 4, x := 100, slope := 50,
    x_top := 0, x_bottom := 0, dy_top := 0, dy_bottom := 0, is_top := true }

/-- The second tied edge, with the smaller slope. -/
def tie_edge_b : Edge :=
  { winding := 1, y_top := 0, y_bottom := 4, x := 100, slope := -3,
    x_top := 0, x_bottom := 0, dy_top := 0, dy_bottom := 0, is_top := true }

/-- The first of two tied edges followed by a smaller one: the swap-based
sort displaces it behind its tie partner. -/
def displaced_edge_b : Edge :=
  { winding := 1, y_top := 0, y_bottom := 4, x := 5, slope := 1,
    x_top := 0, x_bottom := 0, dy_top := 0, dy_bottom := 0, is_top := true }

/-- The second tied edge of the displacement probe. -/
def displaced_edge_c : Edge :=
  { winding := 1, y_top := 0, y_bottom := 4, x := 5, slope := 2,
    x_top := 0, x_bottom := 0, dy_top := 0, dy_bottom := 0, is_top := true }

/-- The trailing smaller-x edge of the displacement probe. -/
def displaced_edge_a : Edge :=
  { winding := 1, y_top := 0, y_bottom := 4, x := 1, slope := 0,
    x_top := 0, x_bottom := 0, dy_top := 0, dy_bottom := 0, is_top := true }

/-- An out-of-order pair of active edges, used to probe
gb_polygon_raster_edges_sorted_append with an empty bucket. -/
def unsorted_edge_a : Edge :=
  { winding := 1, y_top := 0, y_bottom := 4, x := 200, slope := 0,
    x_top := 0, x_bottom := 0, dy_top := 0, dy_bottom := 0, is_top := true }

/-- The second out-of-order edge, with the smaller x. -/
def unsorted_edge_b : Edge :=
  { winding := 1, y_top := 0, y_bottom := 4, x := 0, slope := 0,
    x_top := 0, x_bottom := 0, dy_top := 0, dy_bottom := 0, is_top := true }

/-- A genuine simple triangle whose three vertices round to the same
scanline, so that the raster creates no edge at all: all its y
coordinates are below half a pixel. -/
def flat_triangle : GPolygon :=
  { points := [(0, 6554), (131072, 13107), (65536, 19661), (0, 6554)],
    counts := [4], convex := false }

/-- Bounds for the flat triangle. -/
def flat_bounds : GRect := { x := 0, y := 0, w := 131072, h := 19661 }

/-- The left edge of the rectangle scenario as the raster builds it. -/
def rect_left_edge : Edge :=
  { winding := -1, y_top := 0, y_bottom := 4, x := 0, slope := 0,
    x_top := 0, x_bottom := 0, dy_top := 0, dy_bottom := 0, is_top := true }

/-- The right edge of the rectangle scenario as the raster builds it. -/
def rect_right_edge : Edge :=
  { winding := 1, y_top := 0, y_bottom := 4, x := 655360, slope := 0,
    x_top := 655360, x_bottom := 655360, dy_top := 0, dy_bottom := 0, is_top := true }

/-- The first span the rectangle scenario emits. -/
def rect_first_span : Span := ⟨0, 1, rect_left_edge, rect_right_edge⟩

/-! ## Theorems: the quadratic flattener -/

/-- C5: for every 3-point control polygon, gb_quad_divide_line_count
returns the minimum of the cap GB_QUAD_DIVIDED_MAXN and
ceil-log2(ceil(d)) / 2 + 1, where d is the approximate distance
max(dx, dy) + min(dx, dy) / 2 of the absolute coordinates (dx, dy) of
midpoint(p0, p2) - p1. -/
theorem gb_quad_divide_line_count_eq_spec_formula (p0 p1 p2 : QPoint) :
    gb_quad_divide_line_count p0 p1 p2 =
      min (Nat.clog 2 (Int.ceil
            (max |gb_avg p0.1 p2.1 - p1.1| |gb_avg p0.2 p2.2 - p1.2| +
              gb_half (min |gb_avg p0.1 p2.1 - p1.1| |gb_avg p0.2 p2.2 - p1.2|))).toNat
          / 2 + 1)
        GB_QUAD_DIVIDED_MAXN := by
  have hdist : gb_quad_near_distance p0 p1 p2 =
      max |gb_avg p0.1 p2.1 - p1.1| |gb_avg p0.2 p2.2 - p1.2| +
        gb_half (min |gb_avg p0.1 p2.1 - p1.1| |gb_avg p0.2 p2.2 - p1.2|) := by
    unfold gb_quad_near_distance
    dsimp only
    split_ifs with h
    · rw [max_eq_left h.le, min_eq_right h.le]
    · push_neg at h
      rw [max_eq_right h, min_eq_left h]
  unfold gb_quad_divide_line_count tb_ilog2i
  rw [hdist]
  dsimp only
  split_ifs with h
  · omega
  · omega

/-- C6: for every control polygon, gb_quad_chop_at_half produces the
midpoint output point equal to p0 / 4 + p1 / 2 + p2 / 4 in both
coordinates, the exact de Casteljau value at one half. -/
theorem gb_quad_chop_at_half_midpoint (p0 p1 p2 : QPoint) :
    (gb_quad_chop_at_half p0 p1 p2).2.2.1 =
      (p0.1 / 4 + p1.1 / 2 + p2.1 / 4, p0.2 / 4 + p1.2 / 2 + p2.2 / 4) := by
  unfold gb_quad_chop_at_half gb_avg
  refine Prod.ext ?_ ?_ <;> simp <;> ring

/-- The left half of the half-split runs through the original quad on the
first half of the parameter range. -/
theorem gb_quad_chop_at_half_eval_left (p0 p1 p2 : QPoint) (t : ℚ) :
    gb_quad_eval (gb_quad_chop_at_half p0 p1 p2).1
      (gb_quad_chop_at_half p0 p1 p2).2.1
      (gb_quad_chop_at_half p0 p1 p2).2.2.1 t =
      gb_quad_eval p0 p1 p2 (t / 2) := by
  unfold gb_quad_chop_at_half gb_quad_eval gb_avg
  refine Prod.ext ?_ ?_ <;> simp <;> ring

/-- The right half of the half-split runs through the original quad on the
second half of the parameter range. -/
theorem gb_quad_chop_at_half_eval_right (p0 p1 p2 : QPoint) (t : ℚ) :
    gb_quad_eval (gb_quad_chop_at_half p0 p1 p2).2.2.1
      (gb_quad_chop_at_half p0 p1 p2).2.2.2.1
      (gb_quad_chop_at_half p0 p1 p2).2.2.2.2 t =
      gb_quad_eval p0 p1 p2 ((1 + t) / 2) := by
  unfold gb_quad_chop_at_half gb_quad_eval gb_avg
  refine Prod.ext ?_ ?_ <;> simp <;> ring

/-- The quad evaluated at parameter one is the last control point. -/
theorem gb_quad_eval_one (p0 p1 p2 : QPoint) : gb_quad_eval p0 p1 p2 1 = p2 := by
  unfold gb_quad_eval
  refine Prod.ext ?_ ?_ <;> simp

/-- After n halvings the emitted points are the quad evaluated at the
parameters (k + 1) / 2 ^ n for k below 2 ^ n, in that order. -/
theorem gb_quad_make_line_impl_eq (n : ℕ) :
    ∀ p0 p1 p2 : QPoint, gb_quad_make_line_impl p0 p1 p2 n =
      (List.range (2 ^ n)).map
        (fun k : ℕ => gb_quad_eval p0 p1 p2 (((k : ℚ) + 1) / 2 ^ n)) := by
  induction n with
  | zero =>
    intro p0 p1 p2
    have h1 : List.range 1 = [0] := rfl
    simp only [gb_quad_make_line_impl, h1, List.map_cons,
      List.map_nil, pow_zero, div_one]
    norm_num [gb_quad_eval_one]
  | succ n ih =>
    intro p0 p1 p2
    have h2 : (2:ℚ) ^ n ≠ 0 := by positivity
    have hrange : List.range (2 ^ (n + 1)) =
        List.range (2 ^ n) ++ (List.range (2 ^ n)).map (fun k : ℕ => 2 ^ n + k) := by
      rw [pow_succ, Nat.mul_two, List.range_add]
    rw [gb_quad_make_line_impl, ih, ih, hrange, List.map_append, List.map_map]
    congr 1
    · refine List.map_congr_left ?_
      intro k _
      rw [gb_quad_chop_at_half_eval_left]
      congr 1
      rw [pow_succ, div_div]
    · refine List.map_congr_left ?_
      intro k _
      rw [Function.comp_apply, gb_quad_chop_at_half_eval_right]
      congr 1
      push_cast
      rw [pow_succ]
      field_simp
      ring

/-- C7: for every control polygon, gb_quad_make_line emits at least one
point, and the emitted points are the quadratic curve evaluated at
strictly increasing parameters contained in the half-open interval from
zero exclusive to one inclusive: the leaves of the recursive halving are
emitted left subtree first, in order along the curve parameter. -/
theorem gb_quad_make_line_emission (p0 p1 p2 : QPoint) :
    ∃ ts : List ℚ, ts ≠ [] ∧ ts.Pairwise (· < ·) ∧
      (∀ t ∈ ts, 0 < t ∧ t ≤ 1) ∧
      gb_quad_make_line p0 p1 p2 = ts.map (gb_quad_eval p0 p1 p2) := by
  set N := gb_quad_divide_line_count p0 p1 p2 with hN
  refine ⟨(List.range (2 ^ N)).map (fun k : ℕ => ((k : ℚ) + 1) / 2 ^ N), ?_, ?_, ?_, ?_⟩
  · have h : (2:ℕ) ^ N ≠ 0 := by positivity
    simp only [ne_eq, List.map_eq_nil_iff, List.range_eq_nil]
    exact h
  · rw [List.pairwise_map]
    refine List.Pairwise.imp ?_ (List.pairwise_lt_range (2 ^ N))
    intro a b hab
    have h2 : (0:ℚ) < 2 ^ N := by positivity
    have h1 : (a : ℚ) + 1 < (b : ℚ) + 1 := by exact_mod_cast Nat.succ_lt_succ hab
    exact div_lt_div_of_pos_right h1 h2
  · intro t ht
    rw [List.mem_map] at ht
    obtain ⟨k, hk, rfl⟩ := ht
    rw [List.mem_range] at hk
    have h2 : (0:ℚ) < 2 ^ N := by positivity
    constructor
    · positivity
    · rw [div_le_one h2]
      have h1 : (k : ℚ) + 1 ≤ ((2 ^ N : ℕ) : ℚ) := by exact_mod_cast Nat.succ_le_of_lt hk
      calc (k : ℚ) + 1 ≤ ((2 ^ N : ℕ) : ℚ) := h1
        _ = 2 ^ N := by push_cast; ring
  · rw [gb_quad_make_line, ← hN, gb_quad_make_line_impl_eq, List.map_map]
    rfl

/-- The rejection gauntlet of gb_quad_unit_divide succeeds exactly when the
signed quotient numer / denom falls strictly between zero and one, and in
that case the quotient is stored; otherwise the slot keeps its value. -/
theorem gb_quad_unit_divide_eq (numer denom r0 : ℚ) :
    gb_quad_unit_divide numer denom r0 =
      if 0 < numer / denom ∧ numer / denom < 1 then (1, numer / denom)
      else (0, r0) := by
  unfold gb_quad_unit_divide
  dsimp only
  by_cases hs : numer < 0
  · rw [if_pos hs, if_pos hs, neg_div_neg_eq]
    by_cases h1 : -denom = 0 ∨ -numer = 0 ∨ -numer ≥ -denom
    · rw [if_pos h1]
      rcases h1 with h | h | h
      · have hd : denom = 0 := by linarith
        rw [hd, div_zero, if_neg (by norm_num)]
      · linarith
      · have hdn : numer ≤ denom := by linarith
        rw [if_neg ?hc]
        case hc =>
          rintro ⟨hp, hl⟩
          rcases lt_trichotomy denom 0 with hd | hd | hd
          · have h1le : 1 ≤ numer / denom := by
              rw [le_div_iff_of_neg hd]
              linarith
            linarith
          · rw [hd, div_zero] at hp; linarith
          · have h2 : numer / denom < 0 := div_neg_of_neg_of_pos hs hd
            linarith
    · rw [if_neg h1]
      push_neg at h1
      obtain ⟨hd0, hn0, hlt⟩ := h1
      have hden : denom < 0 := by
        by_contra hc
        push_neg at hc
        have h2 : -denom ≤ 0 := by linarith
        have h3 : -numer < 0 := lt_of_lt_of_le hlt h2
        linarith
      have hp : 0 < numer / denom := div_pos_of_neg_of_neg hs hden
      have hl : numer / denom < 1 := by
        rw [div_lt_one_of_neg hden]
        linarith
      rw [if_neg (not_not_intro ⟨not_lt.mpr hp.le, hl⟩), if_neg (ne_of_gt hp),
        if_pos ⟨hp, hl⟩]
  · rw [if_neg hs, if_neg hs]
    push_neg at hs
    by_cases h1 : denom = 0 ∨ numer = 0 ∨ numer ≥ denom
    · rw [if_pos h1]
      rcases h1 with h | h | h
      · rw [h, div_zero, if_neg (by norm_num)]
      · rw [h, zero_div, if_neg (by norm_num)]
      · rw [if_neg ?hc]
        case hc =>
          rintro ⟨hp, hl⟩
          rcases lt_trichotomy denom 0 with hd | hd | hd
          · have h2 : numer / denom ≤ 0 := div_nonpos_of_nonneg_of_nonpos hs hd.le
            linarith
          · rw [hd, div_zero] at hp; linarith
          · have h2 : 1 ≤ numer / denom := (one_le_div hd).mpr h
            linarith
    · rw [if_neg h1]
      push_neg at h1
      obtain ⟨hd0, hn0, hlt⟩ := h1
      have hnp : 0 < numer := lt_of_le_of_ne hs (Ne.symm hn0)
      have hdp : 0 < denom := lt_trans hnp hlt
      have hp : 0 < numer / denom := div_pos hnp hdp
      have hl : numer / denom < 1 := (div_lt_one hdp).mpr hlt
      rw [if_neg (not_not_intro ⟨not_lt.mpr hp.le, hl⟩), if_neg (ne_of_gt hp),
        if_pos ⟨hp, hl⟩]

/-- C8: gb_quad_chop_at_max_curvature computes the candidate parameter
t = numer / denom with numer = -(x0 x1 + y0 y1), denom = x1 x1 + y1 y1,
x0 = p1.x - p0.x, x1 = p0.x - 2 p1.x + p2.x (and alike for y); when t lies
strictly between zero and one (in the exact model the non-negligible,
finite checks cannot fail otherwise) it splits the quad at t into the five
de Casteljau output points and returns count 2; in every other case (zero
numerator or denominator, ratio outside the unit interval) it copies the
original three points and returns count 1. -/
theorem gb_quad_chop_at_max_curvature_spec (p0 p1 p2 : QPoint) :
    gb_quad_chop_at_max_curvature p0 p1 p2 =
      if 0 < gb_quad_curvature_numer p0 p1 p2 / gb_quad_curvature_denom p0 p1 p2 ∧
          gb_quad_curvature_numer p0 p1 p2 / gb_quad_curvature_denom p0 p1 p2 < 1 then
        (let o := gb_quad_chop_at p0 p1 p2
            (gb_quad_curvature_numer p0 p1 p2 / gb_quad_curvature_denom p0 p1 p2)
         [o.1, o.2.1, o.2.2.1, o.2.2.2.1, o.2.2.2.2], 2)
      else ([p0, p1, p2], 1) := by
  unfold gb_quad_chop_at_max_curvature gb_quad_find_max_curvature
  rw [gb_quad_unit_divide_eq]
  by_cases hc : 0 < gb_quad_curvature_numer p0 p1 p2 / gb_quad_curvature_denom p0 p1 p2 ∧
      gb_quad_curvature_numer p0 p1 p2 / gb_quad_curvature_denom p0 p1 p2 < 1
  · rw [if_pos hc, if_pos hc]
    dsimp only
    rw [if_pos (ne_of_gt hc.1)]
  · rw [if_neg hc, if_neg hc]
    dsimp only
    rw [if_neg (by simp)]

/-- C10: gb_quad_unit_divide writes through the result slot only when it
returns 1 (and then stores the quotient); in every rejection case it
returns 0 and leaves the slot unchanged, so gb_quad_find_max_curvature,
whose slot starts at zero, returns exactly zero for every rejected
input. -/
theorem gb_quad_unit_divide_write_discipline :
    (∀ numer denom r0 : ℚ, (gb_quad_unit_divide numer denom r0).1 = 0 →
        (gb_quad_unit_divide numer denom r0).2 = r0) ∧
    (∀ numer denom r0 : ℚ, (gb_quad_unit_divide numer denom r0).1 ≠ 0 →
        (gb_quad_unit_divide numer denom r0).1 = 1 ∧
        (gb_quad_unit_divide numer denom r0).2 = numer / denom) ∧
    (∀ p0 p1 p2 : QPoint,
        (gb_quad_unit_divide (gb_quad_curvature_numer p0 p1 p2)
          (gb_quad_curvature_denom p0 p1 p2) 0).1 = 0 →
        gb_quad_find_max_curvature p0 p1 p2 = 0) := by
  refine ⟨?_, ?_, ?_⟩
  · intro numer denom r0 h
    rw [gb_quad_unit_divide_eq] at h ⊢
    split_ifs at h ⊢
    rfl
  · intro numer denom r0 h
    rw [gb_quad_unit_divide_eq] at h ⊢
    split_ifs at h ⊢ with hc
    · exact ⟨rfl, rfl⟩
    · simp at h
  · intro p0 p1 p2 h
    unfold gb_quad_find_max_curvature
    rw [gb_quad_unit_divide_eq] at h ⊢
    split_ifs at h ⊢
    rfl

/-- C10 witness: a rejected zero numerator leaves the slot value 7 alone,
and the degenerate control polygon at the origin makes
gb_quad_find_max_curvature return zero. -/
theorem gb_quad_unit_divide_write_discipline_witness :
    (gb_quad_unit_divide 0 1 7).2 = 7 ∧
      gb_quad_find_max_curvature (0, 0) (0, 0) (0, 0) = 0 :=
  ⟨gb_quad_unit_divide_write_discipline.1 0 1 7 (by simp [gb_quad_unit_divide_eq]),
   gb_quad_unit_divide_write_discipline.2.2 (0, 0) (0, 0) (0, 0)
     (by simp [gb_quad_unit_divide_eq, gb_quad_curvature_numer, gb_quad_curvature_denom])⟩

/-! ## Theorems: the polygon rasterizer -/

/-- The kept-and-updated edges of the scanning_next walk do not depend on
the first, order and previous-x bookkeeping: the resulting list is the
filter-map that drops an edge when y is not the last scanline and its
y_bottom is below y + 1, and otherwise advances x by the slope and clears
is_top. -/
theorem gb_polygon_raster_scanning_next_go_fst (bottom y : ℤ) :
    ∀ (l : List Edge) (first order : Bool) (prevx : ℤ),
      (gb_polygon_raster_scanning_next_go bottom y l first order prevx).1 =
        l.filterMap (fun e =>
          if y ≠ bottom - 1 ∧ e.y_bottom < y + 1 then none
          else some { e with x := e.x + e.slope, is_top := false }) := by
  intro l
  induction l with
  | nil => intro first order prevx; rfl
  | cons e rest ih =>
    intro first order prevx
    by_cases h : y ≠ bottom - 1 ∧ e.y_bottom < y + 1
    · simp only [gb_polygon_raster_scanning_next_go, if_pos h, List.filterMap_cons,
        ih]
    · simp only [gb_polygon_raster_scanning_next_go, if_neg h, List.filterMap_cons,
        ih]

/-- C2 (amended): gb_polygon_raster_scanning_next unlinks exactly the
active edges with y at or past their y_bottom (equivalently y_bottom
below y + 1) unless y is the last scanline, and every kept edge gets the
slope added to x and the is_top flag cleared. -/
theorem gb_polygon_raster_scanning_next_spec (bottom y : ℤ) (active : List Edge) :
    (gb_polygon_raster_scanning_next bottom y active).1 =
      active.filterMap (fun e =>
        if y ≠ bottom - 1 ∧ y ≥ e.y_bottom then none
        else some { e with x := e.x + e.slope, is_top := false }) := by
  rw [gb_polygon_raster_scanning_next, gb_polygon_raster_scanning_next_go_fst]
  refine List.filterMap_congr ?_
  intro e _
  simp only [Int.lt_add_one_iff, ge_iff_le]

/-- C2 counterexample: on scanline 5 (not the last one, bottom is 10) the
code unlinks the probe edge whose y_bottom is 5, although the claim's
condition 5 at or above y_bottom + 1 = 6 does not hold, so the claim's
eviction predicate disagrees with the code. -/
theorem gb_polygon_raster_scanning_next_claim_counterexample :
    (gb_polygon_raster_scanning_next 10 5 [probe_edge]).1 = [] ∧
      ¬ (5 ≥ probe_edge.y_bottom + 1) ∧ (5 : ℤ) ≠ 10 - 1 := by
  decide

/-- Membership after a sorted insertion. -/
theorem gb_polygon_raster_mem_sorted_insert (e a : Edge) :
    ∀ l : List Edge, a ∈ gb_polygon_raster_sorted_insert e l ↔ a = e ∨ a ∈ l := by
  intro l
  induction l with
  | nil => simp [gb_polygon_raster_sorted_insert]
  | cons b rest ih =>
    by_cases h : e.x < b.x ∨ (e.x = b.x ∧ e.slope < b.slope)
    · simp only [gb_polygon_raster_sorted_insert, if_pos h, List.mem_cons]
      try tauto
    · simp only [gb_polygon_raster_sorted_insert, if_neg h, List.mem_cons, ih]
      try tauto

/-- The lexicographic edge order is transitive. -/
theorem gb_polygon_raster_lex_trans {a b c : Edge}
    (hab : edge_lex_le a b) (hbc : edge_lex_le b c) : edge_lex_le a c := by
  rcases hab with h | ⟨h1, h2⟩ <;> rcases hbc with g | ⟨g1, g2⟩
  · exact Or.inl (lt_trans h g)
  · exact Or.inl (g1 ▸ h)
  · exact Or.inl (h1 ▸ g)
  · exact Or.inr ⟨h1.trans g1, h2.trans g2⟩

/-- A failed insertion test means the tested edge precedes the new one in
the lexicographic order. -/
theorem gb_polygon_raster_lex_of_not_break {e a : Edge}
    (h : ¬ (e.x < a.x ∨ (e.x = a.x ∧ e.slope < a.slope))) : edge_lex_le a e := by
  push_neg at h
  obtain ⟨h1, h2⟩ := h
  rcases lt_or_eq_of_le h1 with h3 | h3
  · exact Or.inl h3
  · exact Or.inr ⟨h3, le_of_not_lt (fun hc => absurd (h2 h3.symm) (not_le.mpr hc))⟩

/-- Sorted insertion keeps the active list sorted in the lexicographic
order over x and slope. -/
theorem gb_polygon_raster_sorted_insert_pairwise (e : Edge) :
    ∀ l : List Edge, l.Pairwise edge_lex_le →
      (gb_polygon_raster_sorted_insert e l).Pairwise edge_lex_le := by
  intro l
  induction l with
  | nil => intro _; simp [gb_polygon_raster_sorted_insert]
  | cons a rest ih =>
    intro hp
    rw [List.pairwise_cons] at hp
    obtain ⟨ha, hrest⟩ := hp
    by_cases h : e.x < a.x ∨ (e.x = a.x ∧ e.slope < a.slope)
    · rw [gb_polygon_raster_sorted_insert, if_pos h]
      have hea : edge_lex_le e a := by
        rcases h with h | ⟨h1, h2⟩
        · exact Or.inl h
        · exact Or.inr ⟨h1, h2.le⟩
      refine List.Pairwise.cons ?_ (List.Pairwise.cons ha hrest)
      intro b hb
      rcases List.mem_cons.mp hb with rfl | hb
      · exact hea
      · exact gb_polygon_raster_lex_trans hea (ha b hb)
    · rw [gb_polygon_raster_sorted_insert, if_neg h]
      refine List.Pairwise.cons ?_ (ih hrest)
      intro b hb
      rcases (gb_polygon_raster_mem_sorted_insert e b rest).mp hb with rfl | hb
      · exact gb_polygon_raster_lex_of_not_break h
      · exact ha b hb

/-- Membership after the inner sorting pass: the returned head and every
returned slot value come from the slot value and the old slots. -/
theorem gb_polygon_raster_sort_pass_mem (e : Edge) :
    ∀ l : List Edge,
      ((gb_polygon_raster_sort_pass e l).1 = e ∨
        (gb_polygon_raster_sort_pass e l).1 ∈ l) ∧
      (∀ a ∈ (gb_polygon_raster_sort_pass e l).2, a = e ∨ a ∈ l) := by
  intro l
  induction l generalizing e with
  | nil => exact ⟨Or.inl rfl, by simp [gb_polygon_raster_sort_pass]⟩
  | cons r rs ih =>
    by_cases h : r.x < e.x
    · simp only [gb_polygon_raster_sort_pass, if_pos h]
      obtain ⟨ih1, ih2⟩ := ih r
      constructor
      · rcases ih1 with h1 | h1
        · exact Or.inr (by rw [h1]; exact List.mem_cons.mpr (Or.inl rfl))
        · exact Or.inr (List.mem_cons.mpr (Or.inr h1))
      · intro a ha
        rcases List.mem_cons.mp ha with h0 | ha
        · exact Or.inl h0
        · rcases ih2 a ha with h2 | h2
          · exact Or.inr (List.mem_cons.mpr (Or.inl h2))
          · exact Or.inr (List.mem_cons.mpr (Or.inr h2))
    · simp only [gb_polygon_raster_sort_pass, if_neg h]
      obtain ⟨ih1, ih2⟩ := ih e
      constructor
      · rcases ih1 with h1 | h1
        · exact Or.inl h1
        · exact Or.inr (List.mem_cons.mpr (Or.inr h1))
      · intro a ha
        rcases List.mem_cons.mp ha with h0 | ha
        · exact Or.inr (List.mem_cons.mpr (Or.inl h0))
        · rcases ih2 a ha with h2 | h2
          · exact Or.inl h2
          · exact Or.inr (List.mem_cons.mpr (Or.inr h2))

/-- The inner sorting pass returns as head a value whose x is below the
slot value's x and below every returned slot's x. -/
theorem gb_polygon_raster_sort_pass_min (e : Edge) :
    ∀ l : List Edge,
      (gb_polygon_raster_sort_pass e l).1.x ≤ e.x ∧
      (∀ a ∈ (gb_polygon_raster_sort_pass e l).2,
        (gb_polygon_raster_sort_pass e l).1.x ≤ a.x) := by
  intro l
  induction l generalizing e with
  | nil => exact ⟨le_refl _, by simp [gb_polygon_raster_sort_pass]⟩
  | cons r rs ih =>
    by_cases h : r.x < e.x
    · simp only [gb_polygon_raster_sort_pass, if_pos h]
      obtain ⟨ih1, ih2⟩ := ih r
      refine ⟨ih1.trans h.le, ?_⟩
      intro a ha
      rcases List.mem_cons.mp ha with h0 | ha
      · rw [h0]; exact ih1.trans h.le
      · exact ih2 a ha
    · simp only [gb_polygon_raster_sort_pass, if_neg h]
      obtain ⟨ih1, ih2⟩ := ih e
      refine ⟨ih1, ?_⟩
      intro a ha
      rcases List.mem_cons.mp ha with h0 | ha
      · rw [h0]; exact ih1.trans (le_of_not_lt h)
      · exact ih2 a ha

/-- The inner sorting pass keeps the number of remaining slots. -/
theorem gb_polygon_raster_sort_pass_length (e : Edge) :
    ∀ l : List Edge, (gb_polygon_raster_sort_pass e l).2.length = l.length := by
  intro l
  induction l generalizing e with
  | nil => rfl
  | cons r rs ih =>
    by_cases h : r.x < e.x <;>
      simp [gb_polygon_raster_sort_pass, h, ih]

/-- Every edge of the selection-sorted list was in the input list. -/
theorem gb_polygon_raster_edges_sort_go_mem :
    ∀ (n : ℕ) (l : List Edge) (a : Edge),
      a ∈ gb_polygon_raster_edges_sort_go n l → a ∈ l := by
  intro n
  induction n with
  | zero => intro l a h; exact h
  | succ n ih =>
    intro l a h
    match l with
    | [] => exact h
    | e :: rest =>
      rw [gb_polygon_raster_edges_sort_go] at h
      rcases List.mem_cons.mp h with h0 | h0
      · rcases (gb_polygon_raster_sort_pass_mem e rest).1 with h1 | h1
        · rw [h0, h1]; exact List.mem_cons.mpr (Or.inl rfl)
        · rw [h0]; exact List.mem_cons.mpr (Or.inr h1)
      · have h2 := ih _ a h0
        rcases (gb_polygon_raster_sort_pass_mem e rest).2 a h2 with h3 | h3
        · rw [h3]; exact List.mem_cons.mpr (Or.inl rfl)
        · exact List.mem_cons.mpr (Or.inr h3)

/-- With enough fuel the selection sort yields a list sorted by x. -/
theorem gb_polygon_raster_edges_sort_go_pairwise :
    ∀ (n : ℕ) (l : List Edge), l.length ≤ n →
      (gb_polygon_raster_edges_sort_go n l).Pairwise edge_x_le := by
  intro n
  induction n with
  | zero =>
    intro l h
    have : l = [] := List.length_eq_zero.mp (Nat.le_zero.mp h)
    subst this
    exact List.Pairwise.nil
  | succ n ih =>
    intro l h
    match l with
    | [] => exact List.Pairwise.nil
    | e :: rest =>
      rw [gb_polygon_raster_edges_sort_go]
      have hlen : (gb_polygon_raster_sort_pass e rest).2.length ≤ n := by
        rw [gb_polygon_raster_sort_pass_length]
        simpa using h
      refine List.Pairwise.cons ?_ (ih _ hlen)
      intro a ha
      have hmem := gb_polygon_raster_edges_sort_go_mem n _ a ha
      exact (gb_polygon_raster_sort_pass_min e rest).2 a hmem

/-- C3 (amended): after gb_polygon_raster_edges_sort the active list is
sorted by the current x ascending, with no guarantee on the relative
order of equal-x ties (they are neither slope-ordered nor kept in their
original order; see the counterexample); after
gb_polygon_raster_edges_sorted_append on an active list already sorted by
x then slope, the list is again sorted by x then slope. -/
theorem gb_polygon_raster_active_list_order :
    (∀ l : List Edge, (gb_polygon_raster_edges_sort l).Pairwise edge_x_le) ∧
    (∀ bucket active : List Edge, active.Pairwise edge_lex_le →
      (gb_polygon_raster_edges_sorted_append bucket active).Pairwise edge_lex_le) := by
  constructor
  · intro l
    exact gb_polygon_raster_edges_sort_go_pairwise l.length l (le_refl _)
  · intro bucket
    induction bucket with
    | nil => intro active h; exact h
    | cons e rest ih =>
      intro active h
      exact ih _ (gb_polygon_raster_sorted_insert_pairwise e active h)

/-- C3 witness: appending a bucket edge into a sorted one-edge active list
yields a list sorted by x then slope. -/
theorem gb_polygon_raster_active_list_order_witness :
    (gb_polygon_raster_edges_sorted_append [unsorted_edge_b]
      [unsorted_edge_a]).Pairwise edge_lex_le :=
  gb_polygon_raster_active_list_order.2 [unsorted_edge_b] [unsorted_edge_a]
    (by decide)

/-- C3 counterexample: two tied active edges with decreasing slopes stay
in place under gb_polygon_raster_edges_sort (the code compares x only), so
the tie is not broken by slope ascending; two tied edges followed by a
smaller-x edge come out with the tie reversed, so ties are not kept in
their original order either (the swaps displace them); and an unsorted
active list is left untouched by gb_polygon_raster_edges_sorted_append
with an empty bucket, so that call does not leave the list sorted
either. -/
theorem gb_polygon_raster_active_list_order_counterexample :
    gb_polygon_raster_edges_sort [tie_edge_a, tie_edge_b] = [tie_edge_a, tie_edge_b] ∧
    tie_edge_a.x = tie_edge_b.x ∧ tie_edge_b.slope < tie_edge_a.slope ∧
    gb_polygon_raster_edges_sort [displaced_edge_b, displaced_edge_c, displaced_edge_a] =
      [displaced_edge_a, displaced_edge_c, displaced_edge_b] ∧
    displaced_edge_b.x = displaced_edge_c.x ∧ displaced_edge_b ≠ displaced_edge_c ∧
    gb_polygon_raster_edges_sorted_append [] [unsorted_edge_a, unsorted_edge_b] =
      [unsorted_edge_a, unsorted_edge_b] ∧
    unsorted_edge_b.x < unsorted_edge_a.x := by
  decide

/-- With a rule other than 1 and 2 the concave walk never fills a pair, so
starting from an empty cache it emits no span. -/
theorem gb_polygon_raster_concave_go_unknown_rule (y : ℤ) (rule : ℕ)
    (h1 : rule ≠ 1) (h2 : rule ≠ 2) :
    ∀ (l : List Edge) (w : ℤ),
      (gb_polygon_raster_concave_go y rule w none l).1 = [] := by
  intro l
  induction l with
  | nil => intro w; rfl
  | cons e1 t ih =>
    intro w
    match t with
    | [] => rfl
    | e2 :: rest =>
      rw [gb_polygon_raster_concave_go]
      dsimp only
      rw [if_neg h1, if_neg h2]
      simp only [Bool.false_eq_true, if_false]
      exact ih (w + e1.winding)

/-- With a rule other than 1 and 2 the whole concave scan loop emits no
span. -/
theorem gb_polygon_raster_concave_loop_unknown_rule (rule : ℕ)
    (h1 : rule ≠ 1) (h2 : rule ≠ 2) (table : ℤ → List Edge) (bottom : ℤ) :
    ∀ (n : ℕ) (y : ℤ) (active : List Edge) (order : Bool),
      (gb_polygon_raster_concave_loop rule table bottom n y active order).1 = [] := by
  intro n
  induction n with
  | zero => intro y active order; rfl
  | succ n ih =>
    intro y active order
    rw [gb_polygon_raster_concave_loop]
    dsimp only
    rw [gb_polygon_raster_scanning_concave_line,
      gb_polygon_raster_concave_go_unknown_rule y rule h1 h2, ih]
    rfl

/-- C9 (amended): calling gb_polygon_raster_done on a non-convex polygon
with a fill rule other than ODD (1) and NONZERO (2) emits no span at all
(zero fill), whatever the polygon and bounds, and the call completes (the
model is a total function); the log-level error is emitted once per
examined active-edge pair, so it can be absent on degenerate input. -/
theorem gb_polygon_raster_done_unknown_rule_no_spans
    (poly : GPolygon) (bounds : GRect) (rule : ℕ)
    (hcv : poly.convex = false) (h1 : rule ≠ 1) (h2 : rule ≠ 2) :
    (gb_polygon_raster_done poly bounds rule).1 = [] := by
  rw [gb_polygon_raster_done, hcv]
  simp only [Bool.false_eq_true, if_false]
  rw [gb_polygon_raster_done_concave]
  match gb_polygon_raster_edges_make poly.counts poly.points bounds with
  | none => rfl
  | some (table, top, bottom) =>
    exact gb_polygon_raster_concave_loop_unknown_rule rule h1 h2 table bottom _ top [] true

/-- C9 witness: the rectangle scenario under the unknown rule 7 emits no
span. -/
theorem gb_polygon_raster_done_unknown_rule_no_spans_witness :
    (gb_polygon_raster_done rect_poly rect_bounds 7).1 = [] :=
  gb_polygon_raster_done_unknown_rule_no_spans rect_poly rect_bounds 7
    (by decide) (by decide) (by decide)

/-- C9 counterexample: a genuine simple triangle whose vertices all round
to one scanline produces no edge; calling done on it with the unknown rule
3 and non-empty bounds logs no error at all (the error count of the model
stays zero), so the claim that a log-level error is produced does not hold
for every such call. -/
theorem gb_polygon_raster_done_unknown_rule_counterexample :
    (gb_polygon_raster_done flat_triangle flat_bounds 3).2 = 0 ∧
      (gb_polygon_raster_done flat_triangle flat_bounds 3).1 = [] ∧
      flat_triangle.convex = false ∧ (3 : ℕ) ≠ 1 ∧ (3 : ℕ) ≠ 2 ∧
      flat_bounds.w ≠ 0 ∧ flat_bounds.h ≠ 0 := by
  decide

/-- Half-up rounding is monotone. -/
theorem tb_fixed_round_mono {a b : ℤ} (h : a ≤ b) :
    tb_fixed_round a ≤ tb_fixed_round b := by
  unfold tb_fixed_round
  rw [Int.fdiv_eq_ediv _ (by norm_num), Int.fdiv_eq_ediv _ (by norm_num)]
  exact Int.ediv_le_ediv (by norm_num) (by omega)

/-- Every edge the builder creates spans at least one scanline: its y_top
is at most its y_bottom. -/
theorem gb_polygon_raster_edge_make_wf (pb pe : RPoint) (e : Edge)
    (h : gb_polygon_raster_edge_make pb pe = some e) : e.y_top ≤ e.y_bottom := by
  unfold gb_polygon_raster_edge_make at h
  by_cases hne : tb_fixed_round pb.2 = tb_fixed_round pe.2
  · rw [if_pos hne] at h
    exact absurd h (by simp)
  · rw [if_neg hne] at h
    dsimp only at h
    by_cases hs : pb.2 > pe.2
    · simp only [if_pos hs] at h
      have hlt : tb_fixed_round pe.2 < tb_fixed_round pb.2 :=
        lt_of_le_of_ne (tb_fixed_round_mono hs.le) (Ne.symm hne)
      obtain rfl := Option.some.inj h
      dsimp only
      omega
    · simp only [if_neg hs] at h
      push_neg at hs
      have hlt : tb_fixed_round pb.2 < tb_fixed_round pe.2 :=
        lt_of_le_of_ne (tb_fixed_round_mono hs) hne
      obtain rfl := Option.some.inj h
      dsimp only
      omega

/-- Every edge the whole builder walk creates is well formed. -/
theorem gb_polygon_raster_all_edges_wf :
    ∀ (counts : List ℕ) (pts : List RPoint),
      ∀ e ∈ gb_polygon_raster_all_edges counts pts, e.y_top ≤ e.y_bottom := by
  intro counts
  induction counts with
  | nil => intro pts e h; exact absurd h (by simp [gb_polygon_raster_all_edges])
  | cons c cs ih =>
    intro pts e h
    rw [gb_polygon_raster_all_edges] at h
    by_cases hc : c = 0
    · rw [if_pos hc] at h
      exact absurd h (by simp)
    · rw [if_neg hc] at h
      rcases List.mem_append.mp h with h1 | h1
      · rw [gb_polygon_raster_contour_edges] at h1
        obtain ⟨pq, _, hpq⟩ := List.mem_filterMap.mp h1
        exact gb_polygon_raster_edge_make_wf pq.1 pq.2 e hpq
      · exact ih _ e h1

/-- Membership in the built edge table comes from the edge list, bucketed
at its y_top. -/
theorem gb_polygon_raster_build_table_mem :
    ∀ (es : List Edge) (t : ℤ → List Edge) (j : ℤ) (a : Edge),
      a ∈ (es.foldl gb_polygon_raster_table_insert t) j →
      a ∈ t j ∨ (a ∈ es ∧ a.y_top = j) := by
  intro es
  induction es with
  | nil => intro t j a h; exact Or.inl h
  | cons e rest ih =>
    intro t j a h
    rw [List.foldl_cons] at h
    rcases ih _ j a h with h1 | h1
    · unfold gb_polygon_raster_table_insert at h1
      by_cases hj : j = e.y_top
      · rw [if_pos hj] at h1
        rcases List.mem_cons.mp h1 with h2 | h2
        · exact Or.inr ⟨List.mem_cons.mpr (Or.inl h2), by rw [h2, hj]⟩
        · exact Or.inl h2
      · rw [if_neg hj] at h1
        exact Or.inl h1
    · exact Or.inr ⟨List.mem_cons.mpr (Or.inr h1.1), h1.2⟩

/-- The edge table the builder returns satisfies the table invariant. -/
theorem gb_polygon_raster_edges_make_table_inv
    (counts : List ℕ) (pts : List RPoint) (bounds : GRect)
    (table : ℤ → List Edge) (top bottom : ℤ)
    (h : gb_polygon_raster_edges_make counts pts bounds = some (table, top, bottom)) :
    table_inv table := by
  unfold gb_polygon_raster_edges_make at h
  by_cases hb : bounds.w ≠ 0 ∧ bounds.h ≠ 0 ∧ tb_fixed_round bounds.h + 1 ≤ 65535
  · rw [if_pos hb] at h
    dsimp only at h
    obtain ⟨h1, h2, h3⟩ := Prod.mk.inj (Option.some.inj h)
    intro j e he
    rw [← h1] at he
    rcases gb_polygon_raster_build_table_mem _ _ j e he with h4 | h4
    · exact absurd h4 (by simp)
    · have := gb_polygon_raster_all_edges_wf counts pts e h4.1
      omega
  · rw [if_neg hb] at h
    exact absurd h (by simp)

/-- Membership after a sorted append comes from the bucket or the old
active list. -/
theorem gb_polygon_raster_mem_sorted_append :
    ∀ (bucket active : List Edge) (a : Edge),
      a ∈ gb_polygon_raster_edges_sorted_append bucket active →
      a ∈ bucket ∨ a ∈ active := by
  intro bucket
  induction bucket with
  | nil => intro active a h; exact Or.inr h
  | cons e rest ih =>
    intro active a h
    rw [gb_polygon_raster_edges_sorted_append, List.foldl_cons] at h
    rcases ih _ a h with h1 | h1
    · exact Or.inl (List.mem_cons.mpr (Or.inr h1))
    · rcases (gb_polygon_raster_mem_sorted_insert e a active).mp h1 with h2 | h2
      · exact Or.inl (List.mem_cons.mpr (Or.inl h2))
      · exact Or.inr h2

/-- Away from the last scanline, the edges kept by scanning_next all span
the next scanline. -/
theorem gb_polygon_raster_scanning_next_active_inv (bottom y : ℤ)
    (hy : y ≠ bottom - 1) (l : List Edge) :
    active_inv (y + 1) (gb_polygon_raster_scanning_next bottom y l).1 := by
  intro e he
  rw [gb_polygon_raster_scanning_next, gb_polygon_raster_scanning_next_go_fst] at he
  obtain ⟨a, _, ha⟩ := List.mem_filterMap.mp he
  by_cases hc : y ≠ bottom - 1 ∧ a.y_bottom < y + 1
  · rw [if_pos hc] at ha
    exact absurd ha (by simp)
  · rw [if_neg hc] at ha
    obtain rfl := Option.some.inj ha
    dsimp only
    rw [not_and] at hc
    have := hc hy
    omega

/-- One convex scanline step: under both invariants the emitted span (when
any) starts at y and ends past y, and both invariants survive on the
resulting state. -/
theorem gb_polygon_raster_convex_line_step (y : ℤ) (st : ScanState)
    (hact : active_inv y st.active) (htab : table_inv st.table) :
    (∀ sp : Span, (gb_polygon_raster_scanning_convex_line y st).1 = some sp →
      sp.ys = y ∧ y < sp.ye ∧ (sp.ye = y + 1 ∨
        (|sp.lsh.slope| ≤ TB_FIXED_NEAR0 ∧ |sp.rsh.slope| ≤ TB_FIXED_NEAR0))) ∧
    table_inv (gb_polygon_raster_scanning_convex_line y st).2.table ∧
    active_inv y (gb_polygon_raster_scanning_convex_line y st).2.active := by
  unfold gb_polygon_raster_scanning_convex_line
  match hA : st.active with
  | [] =>
    dsimp only
    exact ⟨by intro sp h; exact absurd h (by simp), htab, hact⟩
  | [e] =>
    dsimp only
    exact ⟨by intro sp h; exact absurd h (by simp), htab, hact⟩
  | el :: er :: rest =>
    have hel : el ∈ st.active := by rw [hA]; exact List.mem_cons.mpr (Or.inl rfl)
    have her : er ∈ st.active := by
      rw [hA]; exact List.mem_cons.mpr (Or.inr (List.mem_cons.mpr (Or.inl rfl)))
    by_cases hnear : |el.slope| ≤ TB_FIXED_NEAR0 ∧ |er.slope| ≤ TB_FIXED_NEAR0
    · dsimp only
      rw [if_pos hnear]
      dsimp only
      constructor
      · intro sp h
        obtain rfl := Option.some.inj h
        dsimp only
        refine ⟨rfl, ?_, Or.inr hnear⟩
        by_cases hcmp : el.y_bottom > er.y_bottom
        · rw [if_pos hcmp]
          have := hact er her
          omega
        · rw [if_neg hcmp]
          have := hact el hel
          omega
      constructor
      · by_cases hre : (if el.y_bottom > er.y_bottom then er else el).y_bottom + 1 <
            (if el.y_bottom > er.y_bottom then el else er).y_bottom
        · rw [if_pos hre]
          intro j a ha
          dsimp only at ha
          by_cases hj : j = (if el.y_bottom > er.y_bottom then er else el).y_bottom + 1
          · rw [if_pos hj] at ha
            rcases List.mem_cons.mp ha with h2 | h2
            · rw [h2, hj]
              omega
            · exact htab j a h2
          · rw [if_neg hj] at ha
            exact htab j a ha
        · rw [if_neg hre]
          exact htab
      · intro a ha
        exact absurd ha (by simp)
    · dsimp only
      rw [if_neg hnear]
      refine ⟨?_, htab, hact⟩
      intro sp h
      obtain rfl := Option.some.inj h
      exact ⟨rfl, lt_add_one y, Or.inl rfl⟩

/-- Under the two invariants every span the convex scan loop emits covers
a non-empty scanline range. -/
theorem gb_polygon_raster_convex_loop_extent (bottom : ℤ) :
    ∀ (n : ℕ) (y : ℤ) (st : ScanState),
      table_inv st.table → active_inv y st.active → y + n ≤ bottom →
      ∀ s ∈ gb_polygon_raster_convex_loop bottom n y st, s.ys < s.ye ∧
        (s.ye = s.ys + 1 ∨
          (|s.lsh.slope| ≤ TB_FIXED_NEAR0 ∧ |s.rsh.slope| ≤ TB_FIXED_NEAR0)) := by
  intro n
  induction n with
  | zero => intro y st _ _ _ s hs; exact absurd hs (by simp [gb_polygon_raster_convex_loop])
  | succ n ih =>
    intro y st htab hact hle s hs
    rw [gb_polygon_raster_convex_loop] at hs
    have hact1 : active_inv y
        (gb_polygon_raster_edges_sorted_append (st.table y) st.active) := by
      intro a ha
      rcases gb_polygon_raster_mem_sorted_append _ _ a ha with h1 | h1
      · exact htab y a h1
      · exact hact a h1
    obtain ⟨hspan, htab2, hact2⟩ :=
      gb_polygon_raster_convex_line_step y
        ⟨st.table, gb_polygon_raster_edges_sorted_append (st.table y) st.active⟩
        hact1 htab
    rcases List.mem_append.mp hs with h1 | h1
    · rw [Option.mem_toList] at h1
      obtain ⟨hys, hye, hrect⟩ := hspan s h1
      rw [← hys] at hrect hye
      exact ⟨hye, hrect⟩
    · rcases n with _ | m
      · exact absurd h1 (by simp [gb_polygon_raster_convex_loop])
      · have hy : y ≠ bottom - 1 := by omega
        exact ih (y + 1)
          ⟨(gb_polygon_raster_scanning_convex_line y
              ⟨st.table, gb_polygon_raster_edges_sorted_append (st.table y) st.active⟩).2.table,
           (gb_polygon_raster_scanning_next bottom y
              (gb_polygon_raster_scanning_convex_line y
                ⟨st.table, gb_polygon_raster_edges_sorted_append (st.table y) st.active⟩).2.active).1⟩
          htab2
          (gb_polygon_raster_scanning_next_active_inv bottom y hy _)
          (by omega) s h1

/-- Every span of a convex contour raster covers a non-empty scanline
range. -/
theorem gb_polygon_raster_done_convex_extent (pts : List RPoint) (bounds : GRect) :
    ∀ s ∈ gb_polygon_raster_done_convex pts bounds, s.ys < s.ye ∧
      (s.ye = s.ys + 1 ∨
        (|s.lsh.slope| ≤ TB_FIXED_NEAR0 ∧ |s.rsh.slope| ≤ TB_FIXED_NEAR0)) := by
  intro s hs
  rw [gb_polygon_raster_done_convex] at hs
  match hmk : gb_polygon_raster_edges_make [pts.length] pts bounds with
  | none => rw [hmk] at hs; exact absurd hs (by simp)
  | some (table, top, bottom) =>
    rw [hmk] at hs
    dsimp only at hs
    rcases hn : (bottom - top).toNat with _ | m
    · rw [hn] at hs
      exact absurd hs (by simp [gb_polygon_raster_convex_loop])
    · rw [hn] at hs
      refine gb_polygon_raster_convex_loop_extent bottom (m + 1) top
        ⟨table, []⟩
        (gb_polygon_raster_edges_make_table_inv [pts.length] pts bounds table top bottom hmk)
        (by intro e he; exact absurd he (by simp)) ?_ s hs
      omega

/-- Every span the concave walk emits covers exactly the current
scanline. -/
theorem gb_polygon_raster_concave_go_extent (y : ℤ) (rule : ℕ) :
    ∀ (l : List Edge) (w : ℤ) (cache : Option (Edge × Edge)),
      ∀ s ∈ (gb_polygon_raster_concave_go y rule w cache l).1,
        s.ys = y ∧ s.ye = y + 1 := by
  intro l
  induction l with
  | nil =>
    intro w cache s hs
    match cache with
    | none => exact absurd hs (by simp [gb_polygon_raster_concave_go])
    | some c =>
      simp only [gb_polygon_raster_concave_go, List.mem_singleton] at hs
      rw [hs]
      exact ⟨rfl, rfl⟩
  | cons e1 t ih =>
    intro w cache s hs
    match t with
    | [] =>
      match cache with
      | none => exact absurd hs (by simp [gb_polygon_raster_concave_go])
      | some c =>
        simp only [gb_polygon_raster_concave_go, List.mem_singleton] at hs
        rw [hs]
        exact ⟨rfl, rfl⟩
    | e2 :: rest =>
      match cache with
      | none =>
        rw [gb_polygon_raster_concave_go.eq_def] at hs
        dsimp only at hs
        by_cases hdn : (if rule = 1 then decide ((w + e1.winding) % 2 ≠ 0)
            else if rule = 2 then decide (w + e1.winding ≠ 0) else false) = true
        · rw [if_pos hdn] at hs
          exact ih _ _ s hs
        · rw [if_neg hdn] at hs
          exact ih _ _ s hs
      | some (cl, cr) =>
        rw [gb_polygon_raster_concave_go.eq_def] at hs
        dsimp only at hs
        by_cases hdn : (if rule = 1 then decide ((w + e1.winding) % 2 ≠ 0)
            else if rule = 2 then decide (w + e1.winding ≠ 0) else false) = true
        · rw [if_pos hdn] at hs
          by_cases hrnd : tb_fixed_round cr.x = tb_fixed_round e1.x
          · rw [if_pos hrnd] at hs
            exact ih _ _ s hs
          · rw [if_neg hrnd] at hs
            rcases List.mem_cons.mp hs with h1 | h1
            · rw [h1]; exact ⟨rfl, rfl⟩
            · exact ih _ _ s h1
        · rw [if_neg hdn] at hs
          exact ih _ _ s hs

/-- Every span the concave scan loop emits covers exactly one scanline. -/
theorem gb_polygon_raster_concave_loop_extent (rule : ℕ)
    (table : ℤ → List Edge) (bottom : ℤ) :
    ∀ (n : ℕ) (y : ℤ) (active : List Edge) (order : Bool),
      ∀ s ∈ (gb_polygon_raster_concave_loop rule table bottom n y active order).1,
        s.ye = s.ys + 1 := by
  intro n
  induction n with
  | zero =>
    intro y active order s hs
    exact absurd hs (by simp [gb_polygon_raster_concave_loop])
  | succ n ih =>
    intro y active order s hs
    rw [gb_polygon_raster_concave_loop] at hs
    dsimp only at hs
    rcases List.mem_append.mp hs with h1 | h1
    · obtain ⟨hys, hye⟩ := gb_polygon_raster_concave_go_extent y rule _ 0 none s h1
      omega
    · exact ih _ _ _ s h1

/-- C4: every span gb_polygon_raster_done delivers to the emit callback
satisfies y_end above y_start; on the concave path (convex flag off)
y_end is exactly y_start + 1; and any span with y_end different from
y_start + 1 carries two nearly vertical edges, the guard of the convex
rectangular fast path, so only that fast path can deliver longer
spans. -/
theorem gb_polygon_raster_done_span_extent (poly : GPolygon) (bounds : GRect)
    (rule : ℕ) (s : Span)
    (hs : s ∈ (gb_polygon_raster_done poly bounds rule).1) :
    s.ys < s.ye ∧ (poly.convex = false → s.ye = s.ys + 1) ∧
      (s.ye ≠ s.ys + 1 →
        |s.lsh.slope| ≤ TB_FIXED_NEAR0 ∧ |s.rsh.slope| ≤ TB_FIXED_NEAR0) := by
  rw [gb_polygon_raster_done] at hs
  by_cases hcv : poly.convex
  · rw [if_pos hcv] at hs
    dsimp only at hs
    obtain ⟨ls, hls, hmem⟩ := List.mem_flatten.mp hs
    obtain ⟨pts, _, hpts⟩ := List.mem_map.mp hls
    rw [← hpts] at hmem
    obtain ⟨hlt, hrect⟩ := gb_polygon_raster_done_convex_extent pts bounds s hmem
    refine ⟨hlt, ?_, ?_⟩
    · intro hfalse
      rw [hcv] at hfalse
      exact absurd hfalse (by simp)
    · intro hne
      rcases hrect with h | h
      · exact absurd h hne
      · exact h
  · rw [if_neg hcv] at hs
    rw [gb_polygon_raster_done_concave] at hs
    match hmk : gb_polygon_raster_edges_make poly.counts poly.points bounds with
    | none => rw [hmk] at hs; exact absurd hs (by simp)
    | some (table, top, bottom) =>
      rw [hmk] at hs
      have h1 := gb_polygon_raster_concave_loop_extent rule table bottom
        (bottom - top).toNat top [] true s hs
      exact ⟨by omega, fun _ => h1, fun hne => absurd h1 hne⟩

/-- C4 witness: the first span of the rectangle scenario, obtained through
the concave path, covers scanline 0 only. -/
theorem gb_polygon_raster_done_span_extent_witness :
    rect_first_span.ys < rect_first_span.ye ∧
      (rect_poly.convex = false → rect_first_span.ye = rect_first_span.ys + 1) ∧
      (rect_first_span.ye ≠ rect_first_span.ys + 1 →
        |rect_first_span.lsh.slope| ≤ TB_FIXED_NEAR0 ∧
        |rect_first_span.rsh.slope| ≤ TB_FIXED_NEAR0) :=
  gb_polygon_raster_done_span_extent rect_poly rect_bounds 1 rect_first_span
    (by decide)

/-- Covering survives prepending a span. -/
theorem span_covers_cons {y lo hi : ℤ} {s : Span} {spans : List Span}
    (h : span_covers y spans lo hi) : span_covers y (s :: spans) lo hi := by
  obtain ⟨s', hmem, h1, h2, h3, h4⟩ := h
  exact ⟨s', List.mem_cons.mpr (Or.inr hmem), h1, h2, h3, h4⟩

/-- The winding sum over one more edge. -/
theorem winding_sum_cons (e : Edge) (t : List Edge) (k : ℕ) :
    winding_sum (e :: t) (k + 1) = e.winding + winding_sum t k := by
  unfold winding_sum
  rw [List.take_succ_cons]
  simp

/-- The empty winding sum. -/
theorem winding_sum_zero (l : List Edge) : winding_sum l 0 = 0 := rfl

/-- Unfolding of the concave walk under the odd rule with an empty cache:
a filled pair starts the cache, anything else recurses. -/
theorem gb_polygon_raster_concave_go_one_none (y w : ℤ) (e1 e2 : Edge)
    (rest : List Edge) :
    gb_polygon_raster_concave_go y 1 w none (e1 :: e2 :: rest) =
      if (w + e1.winding) % 2 ≠ 0 then
        gb_polygon_raster_concave_go y 1 (w + e1.winding) (some (e1, e2)) (e2 :: rest)
      else gb_polygon_raster_concave_go y 1 (w + e1.winding) none (e2 :: rest) := by
  rw [gb_polygon_raster_concave_go.eq_def]
  dsimp only
  norm_num

/-- Unfolding of the concave walk under the odd rule with a full cache: a
filled pair merges into the cache when the cached right x rounds with the
pair's left x, else flushes the cache as a span. -/
theorem gb_polygon_raster_concave_go_one_some (y w : ℤ) (cl cr e1 e2 : Edge)
    (rest : List Edge) :
    gb_polygon_raster_concave_go y 1 w (some (cl, cr)) (e1 :: e2 :: rest) =
      (if (w + e1.winding) % 2 ≠ 0 then
        (if tb_fixed_round cr.x = tb_fixed_round e1.x then
          gb_polygon_raster_concave_go y 1 (w + e1.winding) (some (cl, e2)) (e2 :: rest)
        else
          let r := gb_polygon_raster_concave_go y 1 (w + e1.winding) (some (e1, e2)) (e2 :: rest)
          (⟨y, y + 1, cl, cr⟩ :: r.1, r.2))
      else gb_polygon_raster_concave_go y 1 (w + e1.winding) (some (cl, cr)) (e2 :: rest)) := by
  rw [gb_polygon_raster_concave_go.eq_def]
  dsimp only
  norm_num

/-- The covering invariant of the concave walk under the odd rule: on a
sorted active suffix, with a sound cache (left at most right, right at
most the next edge's x), the emitted spans cover the cached interval and
the interval of every adjacent pair whose accumulated winding is odd. -/
theorem gb_polygon_raster_concave_go_covers (y : ℤ) :
    ∀ (l : List Edge) (w : ℤ) (cache : Option (Edge × Edge)),
      l.Pairwise edge_x_le →
      (∀ cl cr : Edge, cache = some (cl, cr) → cl.x ≤ cr.x ∧
        ∀ e : Edge, l.head? = some e → cr.x ≤ e.x) →
      (∀ cl cr : Edge, cache = some (cl, cr) →
        span_covers y (gb_polygon_raster_concave_go y 1 w cache l).1 cl.x cr.x) ∧
      (∀ (k : ℕ) (hk : k + 1 < l.length), (w + winding_sum l (k + 1)) % 2 ≠ 0 →
        span_covers y (gb_polygon_raster_concave_go y 1 w cache l).1
          (l.get ⟨k, Nat.lt_of_succ_lt hk⟩).x (l.get ⟨k + 1, hk⟩).x) := by
  intro l
  induction l with
  | nil =>
    intro w cache hp hok
    constructor
    · intro cl cr hc
      subst hc
      exact ⟨⟨y, y + 1, cl, cr⟩, by simp [gb_polygon_raster_concave_go],
        rfl, rfl, le_refl _, le_refl _⟩
    · intro k hk
      simp at hk
  | cons e1 t ih =>
    intro w cache hp hok
    rcases t with _ | ⟨e2, rest⟩
    · constructor
      · intro cl cr hc
        subst hc
        exact ⟨⟨y, y + 1, cl, cr⟩, by simp [gb_polygon_raster_concave_go],
          rfl, rfl, le_refl _, le_refl _⟩
      · intro k hk
        simp at hk
    · rw [List.pairwise_cons] at hp
      obtain ⟨he1, hpt⟩ := hp
      have h12 : e1.x ≤ e2.x := he1 e2 (List.mem_cons.mpr (Or.inl rfl))
      by_cases hdn : (w + e1.winding) % 2 ≠ 0
      · rcases cache with _ | ⟨cl0, cr0⟩
        · rw [gb_polygon_raster_concave_go_one_none, if_pos hdn]
          have hok' : ∀ cl cr : Edge, (some (e1, e2) : Option (Edge × Edge)) = some (cl, cr) →
              cl.x ≤ cr.x ∧ ∀ e : Edge, (e2 :: rest).head? = some e → cr.x ≤ e.x := by
            intro cl cr hc
            obtain ⟨h1, h2⟩ := Prod.mk.inj (Option.some.inj hc)
            rw [← h1, ← h2]
            refine ⟨h12, ?_⟩
            intro e he
            obtain rfl := Option.some.inj he
            exact le_refl _
          obtain ⟨ihA, ihB⟩ := ih (w + e1.winding) (some (e1, e2)) hpt hok'
          constructor
          · intro cl cr hc
            exact absurd hc (by simp)
          · intro k hk hw
            rcases k with _ | k
            · exact ihA e1 e2 rfl
            · have hk' : k + 1 < (e2 :: rest).length := by
                simp only [List.length_cons] at hk ⊢
                omega
              have hw' : (w + e1.winding + winding_sum (e2 :: rest) (k + 1)) % 2 ≠ 0 := by
                rw [winding_sum_cons] at hw
                rw [add_assoc]
                exact hw
              exact ihB k hk' hw'
        · obtain ⟨hclcr, hhead⟩ := hok cl0 cr0 rfl
          have hcr1 : cr0.x ≤ e1.x := hhead e1 rfl
          by_cases hrnd : tb_fixed_round cr0.x = tb_fixed_round e1.x
          · rw [gb_polygon_raster_concave_go_one_some, if_pos hdn, if_pos hrnd]
            have hok' : ∀ cl cr : Edge, (some (cl0, e2) : Option (Edge × Edge)) = some (cl, cr) →
                cl.x ≤ cr.x ∧ ∀ e : Edge, (e2 :: rest).head? = some e → cr.x ≤ e.x := by
              intro cl cr hc
              obtain ⟨h1, h2⟩ := Prod.mk.inj (Option.some.inj hc)
              rw [← h1, ← h2]
              refine ⟨hclcr.trans (hcr1.trans h12), ?_⟩
              intro e he
              obtain rfl := Option.some.inj he
              exact le_refl _
            obtain ⟨ihA, ihB⟩ := ih (w + e1.winding) (some (cl0, e2)) hpt hok'
            constructor
            · intro cl cr hc
              obtain ⟨h1, h2⟩ := Prod.mk.inj (Option.some.inj hc)
              rw [← h1, ← h2]
              obtain ⟨s, hmem, hys, hye, hlo, hhi⟩ := ihA cl0 e2 rfl
              exact ⟨s, hmem, hys, hye, hlo, le_trans (hcr1.trans h12) hhi⟩
            · intro k hk hw
              rcases k with _ | k
              · obtain ⟨s, hmem, hys, hye, hlo, hhi⟩ := ihA cl0 e2 rfl
                exact ⟨s, hmem, hys, hye, le_trans hlo (hclcr.trans hcr1), hhi⟩
              · have hk' : k + 1 < (e2 :: rest).length := by
                  simp only [List.length_cons] at hk ⊢
                  omega
                have hw' : (w + e1.winding + winding_sum (e2 :: rest) (k + 1)) % 2 ≠ 0 := by
                  rw [winding_sum_cons] at hw
                  rw [add_assoc]
                  exact hw
                exact ihB k hk' hw'
          · rw [gb_polygon_raster_concave_go_one_some, if_pos hdn, if_neg hrnd]
            dsimp only
            have hok' : ∀ cl cr : Edge, (some (e1, e2) : Option (Edge × Edge)) = some (cl, cr) →
                cl.x ≤ cr.x ∧ ∀ e : Edge, (e2 :: rest).head? = some e → cr.x ≤ e.x := by
              intro cl cr hc
              obtain ⟨h1, h2⟩ := Prod.mk.inj (Option.some.inj hc)
              rw [← h1, ← h2]
              refine ⟨h12, ?_⟩
              intro e he
              obtain rfl := Option.some.inj he
              exact le_refl _
            obtain ⟨ihA, ihB⟩ := ih (w + e1.winding) (some (e1, e2)) hpt hok'
            constructor
            · intro cl cr hc
              obtain ⟨h1, h2⟩ := Prod.mk.inj (Option.some.inj hc)
              rw [← h1, ← h2]
              exact ⟨⟨y, y + 1, cl0, cr0⟩, List.mem_cons.mpr (Or.inl rfl),
                rfl, rfl, le_refl _, le_refl _⟩
            · intro k hk hw
              rcases k with _ | k
              · exact span_covers_cons (ihA e1 e2 rfl)
              · have hk' : k + 1 < (e2 :: rest).length := by
                  simp only [List.length_cons] at hk ⊢
                  omega
                have hw' : (w + e1.winding + winding_sum (e2 :: rest) (k + 1)) % 2 ≠ 0 := by
                  rw [winding_sum_cons] at hw
                  rw [add_assoc]
                  exact hw
                exact span_covers_cons (ihB k hk' hw')
      · rcases cache with _ | ⟨cl0, cr0⟩
        · rw [gb_polygon_raster_concave_go_one_none, if_neg hdn]
          obtain ⟨ihA, ihB⟩ := ih (w + e1.winding) none hpt (by simp)
          constructor
          · intro cl cr hc
            exact absurd hc (by simp)
          · intro k hk hw
            rcases k with _ | k
            · exfalso
              rw [winding_sum_cons, winding_sum_zero, add_zero] at hw
              exact hdn hw
            · have hk' : k + 1 < (e2 :: rest).length := by
                simp only [List.length_cons] at hk ⊢
                omega
              have hw' : (w + e1.winding + winding_sum (e2 :: rest) (k + 1)) % 2 ≠ 0 := by
                rw [winding_sum_cons] at hw
                rw [add_assoc]
                exact hw
              exact ihB k hk' hw'
        · obtain ⟨hclcr, hhead⟩ := hok cl0 cr0 rfl
          have hcr1 : cr0.x ≤ e1.x := hhead e1 rfl
          rw [gb_polygon_raster_concave_go_one_some, if_neg hdn]
          have hok' : ∀ cl cr : Edge, (some (cl0, cr0) : Option (Edge × Edge)) = some (cl, cr) →
              cl.x ≤ cr.x ∧ ∀ e : Edge, (e2 :: rest).head? = some e → cr.x ≤ e.x := by
            intro cl cr hc
            obtain ⟨h1, h2⟩ := Prod.mk.inj (Option.some.inj hc)
            rw [← h1, ← h2]
            refine ⟨hclcr, ?_⟩
            intro e he
            obtain rfl := Option.some.inj he
            exact hcr1.trans h12
          obtain ⟨ihA, ihB⟩ := ih (w + e1.winding) (some (cl0, cr0)) hpt hok'
          constructor
          · intro cl cr hc
            obtain ⟨h1, h2⟩ := Prod.mk.inj (Option.some.inj hc)
            rw [← h1, ← h2]
            exact ihA cl0 cr0 rfl
          · intro k hk hw
            rcases k with _ | k
            · exfalso
              rw [winding_sum_cons, winding_sum_zero, add_zero] at hw
              exact hdn hw
            · have hk' : k + 1 < (e2 :: rest).length := by
                simp only [List.length_cons] at hk ⊢
                omega
              have hw' : (w + e1.winding + winding_sum (e2 :: rest) (k + 1)) % 2 ≠ 0 := by
                rw [winding_sum_cons] at hw
                rw [add_assoc]
                exact hw
              exact ihB k hk' hw'

/-- C1 (amended): on any scanline whose active list is sorted by x, every
adjacent active-edge pair with odd accumulated winding is covered by a
span emitted by gb_polygon_raster_scanning_concave_line under the ODD
rule: the span starts at the scanline, ends one below, reaches left of
the pair's left x and right of the pair's right x.  The exact identity of
the span union with the strictly interior pixel centers does not hold
(spans may take in boundary centers; see the counterexample). -/
theorem gb_polygon_raster_concave_line_covers_odd_pairs (y : ℤ) (act : List Edge)
    (hsorted : act.Pairwise edge_x_le) (k : ℕ) (hk : k + 1 < act.length)
    (hodd : winding_sum act (k + 1) % 2 ≠ 0) :
    span_covers y (gb_polygon_raster_scanning_concave_line y 1 act).1
      (act.get ⟨k, Nat.lt_of_succ_lt hk⟩).x (act.get ⟨k + 1, hk⟩).x := by
  exact (gb_polygon_raster_concave_go_covers y act 0 none hsorted (by simp)).2 k hk
    (by rw [zero_add]; exact hodd)

/-- C1 witness: the rectangle scenario's two active edges at scanline 0
form an odd pair, and the emitted span covers their interval. -/
theorem gb_polygon_raster_concave_line_covers_odd_pairs_witness :
    span_covers 0
      (gb_polygon_raster_scanning_concave_line 0 1 [rect_left_edge, rect_right_edge]).1
      rect_left_edge.x rect_right_edge.x :=
  gb_polygon_raster_concave_line_covers_odd_pairs 0 [rect_left_edge, rect_right_edge]
    (by decide) 0 (by decide) (by decide)

/-- C1 counterexample: on the spec's own 10 by 5 rectangle (a simple
polygon, convex flag off, non-empty bounds, ODD rule), the pixel centered
at (1, 0) lies inside the union of the emitted spans even under the
strictest reading of a span (strictly between the two edge x coordinates,
inside the half-open scanline range), yet that center sits on the
polygon's bottom boundary, so it is not strictly inside: the span union
is not equal to the set of strictly interior pixel centers. -/
theorem gb_polygon_raster_coverage_identity_counterexample :
    pixel_in_spans (gb_polygon_raster_done rect_poly rect_bounds 1).1 1 0 = true ∧
    strictly_inside_odd (polygon_segments rect_poly.counts rect_poly.points) (65536, 0) = false ∧
    rect_poly.convex = false ∧ rect_bounds.w ≠ 0 ∧ rect_bounds.h ≠ 0 := by
  decide
